import Mathlib

/-!
Verification of the sol-sign core (src/lib/signer.ts and src/lib/validator.ts).

Strings are modelled as `List Char`, byte buffers (`Uint8Array` / `Buffer`) as
`List Nat` whose entries are below 256 (stated as hypotheses where needed).
JavaScript `BigInt` arithmetic is modelled with `Nat`.  The division loops of
the source are modelled with an explicit fuel argument (the loops terminate
because the dividend shrinks; adequate fuel is supplied at every call site and
justified in the lemmas by a `n < base ^ fuel` hypothesis).
-/

namespace SolSign


/-- Big-endian positional value of a digit list: models the JS accumulation
loops `num = num * 58n + BigInt(index)` in `fromBase58` and the value
`BigInt('0x' + hex(bytes))` computed in `toBase58` (concatenating two hex
digits per byte reads the buffer as a big-endian base-256 numeral). -/
def ofDigitsBE (b : Nat) (ds : List Nat) : Nat :=
  ds.foldl (fun acc d => acc * b + d) 0

/-- Big-endian digit expansion by repeated division, the shape of the
`while (num > 0n) { remainder = num % 58n; ...; num = num / 58n }` loop in
`toBase58` and of the hex/byte conversion in `fromBase58`.  `fuel` bounds the
number of iterations. -/
def toDigitsBE (b : Nat) : Nat → Nat → List Nat
  | 0, _ => []
  | fuel + 1, n => if n = 0 then [] else toDigitsBE b fuel (n / b) ++ [n % b]

/-- Length of the leading run of elements satisfying `p`: models the
`for (...; bytes[i] === 0; i++)` / leading-`'1'` counting loops. -/
def countLeading (p : α → Bool) : List α → Nat
  | [] => 0
  | a :: as => if p a then countLeading p as + 1 else 0

/-! ## The repository's base58 codec (src/lib/signer.ts, toBase58 / fromBase58) -/

/-- The alphabet constant of `toBase58` / `fromBase58`. -/
def base58Alphabet : List Char :=
  "123456789ABCDEFGHJKLMNPQRSTUVWXYZabcdefghijkmnopqrstuvwxyz".toList

/-- Models `alphabet[d]`: digit-to-character lookup used by `toBase58`. -/
def alph (d : Nat) : Char := base58Alphabet.getD d '?'

/-- Scanning helper for `alphabet.indexOf(char)`. -/
def b58IndexAux (c : Char) : List Char → Nat → Option Nat
  | [], _ => none
  | d :: ds, i => if d = c then some i else b58IndexAux c ds (i + 1)

/-- Models `alphabet.indexOf(char)` in `fromBase58`; `none` models the `-1` result. -/
def b58Index (c : Char) : Option Nat := b58IndexAux c base58Alphabet 0

/-- The character-to-digit pass of `fromBase58`'s loop: fails (throws
`Invalid base58 character`) as soon as one character is not in the alphabet,
otherwise yields the digit list that the loop accumulates into `num`. -/
def b58Indexes : List Char → Option (List Nat)
  | [] => some []
  | c :: cs =>
    match b58Index c with
    | none => none
    | some i => (b58Indexes cs).map (i :: ·)

/-- Models `SolanaMessageSigner.toBase58`.  `num` is `BigInt('0x' + hex(bytes))`
(the big-endian base-256 value of the buffer; `BigInt('0x')` throws on an
empty buffer, modelled by `none`).  An all-zero buffer returns early with
`'1'`, skipping the leading-zero loop; otherwise one `'1'` is prepended per
leading zero byte.  The division loop gets fuel `2 * bytes.length`, enough
because `num < 256^len ≤ 58^(2*len)`. -/
def toBase58 (bytes : List Nat) : Option (List Char) :=
  if bytes = [] then none
  else if ofDigitsBE 256 bytes = 0 then some ['1']
  else
    some (List.replicate (countLeading (fun b => b = 0) bytes) '1' ++
      (toDigitsBE 58 (2 * bytes.length) (ofDigitsBE 256 bytes)).map alph)

/-- Models `SolanaMessageSigner.fromBase58`.  After accumulating `num`, the source
converts `num.toString(16)` (zero-padded to even length) back through
`Buffer.from(hex, 'hex')`: for `num > 0` this is the minimal big-endian
base-256 representation, but for `num = 0` the hex string is `"00"`, giving
the single byte `[0]`.  One zero byte is then prepended per leading `'1'`.
Fuel `s.length` suffices because `num < 58^len ≤ 256^len`. -/
def fromBase58 (s : List Char) : Option (List Nat) :=
  match b58Indexes s with
  | none => none
  | some idxs =>
    some (List.replicate (countLeading (fun c => c = '1') s) 0 ++
      (if ofDigitsBE 58 idxs = 0 then [0]
       else toDigitsBE 256 s.length (ofDigitsBE 58 idxs)))

/-! ## Hex codec (`Buffer.from(signature).toString('hex')` / `Buffer.from(str, 'hex')`) -/

/-- The lowercase hex digit table of Node's `toString('hex')`. -/
def hexDigits : List Char := "0123456789abcdef".toList

def hexDigit (n : Nat) : Char := hexDigits.getD n '?'

/-- Numeric value of a hex digit (upper or lower case), `none` otherwise. -/
def hexVal (c : Char) : Option Nat :=
  if '0' ≤ c ∧ c ≤ '9' then some (c.toNat - 48)
  else if 'a' ≤ c ∧ c ≤ 'f' then some (c.toNat - 87)
  else if 'A' ≤ c ∧ c ≤ 'F' then some (c.toNat - 55)
  else none

/-- Models `Buffer.from(bytes).toString('hex')`: two lowercase hex digits per byte. -/
def hexEncode : List Nat → List Char
  | [] => []
  | b :: bs => hexDigit (b / 16) :: hexDigit (b % 16) :: hexEncode bs

/-- Modelled from Node's documented `Buffer.from(str, 'hex')` semantics: the
decoder never throws; it consumes two-hex-digit pairs and stops at the first
pair containing a non-hex character (or at a lone trailing character),
returning the bytes decoded so far (possibly none). -/
def bufferFromHex : List Char → List Nat
  | c1 :: c2 :: rest =>
    match hexVal c1, hexVal c2 with
    | some hi, some lo => (hi * 16 + lo) :: bufferFromHex rest
    | _, _ => []
  | _ => []

/-! ## Base64 codec (`Buffer.from(signature).toString('base64')` / `Buffer.from(str, 'base64')`) -/

def b64Alphabet : List Char :=
  "ABCDEFGHIJKLMNOPQRSTUVWXYZabcdefghijklmnopqrstuvwxyz0123456789+/".toList

def enc6 (n : Nat) : Char := b64Alphabet.getD n '?'

def dec6 (c : Char) : Option Nat := b58IndexAux c b64Alphabet 0

/-- Models `Buffer.from(bytes).toString('base64')`: standard RFC 4648 encoding with
`'='` padding, three bytes per four characters. -/
def b64Encode : List Nat → List Char
  | [] => []
  | [a] => [enc6 (a / 4), enc6 (a % 4 * 16), '=', '=']
  | [a, b] => [enc6 (a / 4), enc6 (a % 4 * 16 + b / 16), enc6 (b % 16 * 4), '=']
  | a :: b :: c :: rest =>
    enc6 (a / 4) :: enc6 (a % 4 * 16 + b / 16) :: enc6 (b % 16 * 4 + c / 64) ::
      enc6 (c % 64) :: b64Encode rest

/-- Modelled from Node's documented `Buffer.from(str, 'base64')` semantics on
well-formed input: groups of four characters yield three bytes; a group whose
third or fourth character is padding (any non-alphabet character is treated
as terminating, as the decoder is forgiving and never throws) yields one or
two bytes. -/
def bufferFromB64 : List Char → List Nat
  | w :: x :: y :: z :: rest =>
    match dec6 w, dec6 x with
    | some wv, some xv =>
      (match dec6 y with
       | none => [wv * 4 + xv / 16]
       | some yv =>
         match dec6 z with
         | none => [wv * 4 + xv / 16, xv % 16 * 16 + yv / 4]
         | some zv =>
           (wv * 4 + xv / 16) :: (xv % 16 * 16 + yv / 4) :: (yv % 4 * 64 + zv) ::
             bufferFromB64 rest)
    | _, _ => []
  | _ => []

/-! ## The web3.js base58 codec (external dependency of the source)

`keypair.publicKey.toBase58()` and `new PublicKey(str).toBytes()` use the
standard `bs58` codec, which unlike the repository's own `toBase58` handles
all-zero and empty buffers canonically.  Modelled from the documented
Bitcoin-alphabet base58 algorithm. -/

def bs58encode (bytes : List Nat) : List Char :=
  List.replicate (countLeading (fun b => b = 0) bytes) '1' ++
    (toDigitsBE 58 (2 * bytes.length) (ofDigitsBE 256 bytes)).map alph

def bs58decode (s : List Char) : Option (List Nat) :=
  match b58Indexes s with
  | none => none
  | some idxs =>
    some (List.replicate (countLeading (fun c => c = '1') s) 0 ++
      toDigitsBE 256 s.length (ofDigitsBE 58 idxs))

/-! ## Signature formats (`formatSignature` / `parseSignature`) -/

/-- The `'hex' | 'base58' | 'base64'` union type of the source. -/
inductive SigFormat
  | hex
  | base58
  | base64
deriving DecidableEq

/-- Models `SolanaMessageSigner.formatSignature`: the `switch` over the output
format.  The base58 arm calls the repository's own `toBase58` (which throws
on an empty buffer, hence the `Option`); the hex and base64 arms use Node
buffers and always succeed. -/
def formatSignature (signature : List Nat) : SigFormat → Option (List Char)
  | SigFormat.hex => some (hexEncode signature)
  | SigFormat.base58 => toBase58 signature
  | SigFormat.base64 => some (b64Encode signature)

/-- Models `SolanaMessageSigner.parseSignature`: the `switch` over the input format.
Only the base58 arm can fail (`Invalid base58 character`); `Buffer.from` with
`'hex'` or `'base64'` never throws. -/
def parseSignature (signature : List Char) : SigFormat → Option (List Nat)
  | SigFormat.hex => some (bufferFromHex signature)
  | SigFormat.base58 => fromBase58 signature
  | SigFormat.base64 => some (bufferFromB64 signature)

/-! ## Ed25519 signing and verification (tweetnacl, external dependency)

`nacl.sign.detached` / `nacl.sign.detached.verify` are not part of this
repository.  Modelled from the spec (§4.3): signing is a deterministic pure
function of the message and the 64-byte secret key whose last 32 bytes are
the public key, and verification (i) rejects a signature buffer that is not
exactly 64 bytes or a public key that is not exactly 32 bytes with an error
(tweetnacl's `bad signature size` / `bad public key size`), and (ii)
otherwise returns true iff the signature is the unique valid detached
signature of the message under the public key.

No deterministic model can realize (i) and (ii) at once for messages of
every length: distinct messages need distinct valid signatures for the
tampering direction of (ii), and no encoding that is injective in the
message fits in a fixed 64 bytes of values below 256.  Real Ed25519 escapes
this only computationally (hash collisions exist but are infeasible).  The
two aspects are therefore modelled as two projections of the same source
function: a validity projection (`naclVerifyDetached`), in which the valid
signature is the injective pair encoding `publicKey ++ message` and the
length gates are elided — every signature this development feeds it is a
genuinely valid one, which in reality always is 64 bytes and passes the
gates — and a gate projection (`naclVerifyDetachedGated`), in which the
64/32-byte gates are explicit and the valid signature is reshaped to the
scheme's fixed 64-byte size. -/

/-- Modelled from the spec: `nacl.sign.detached(messageBytes, secretKey)`. -/
def naclSignDetached (msgBytes sk : List Nat) : List Nat :=
  List.drop 32 sk ++ msgBytes

/-- Modelled from the spec, validity projection: `nacl.sign.detached.verify`
— true iff the signature is the valid signature of the message under the
key.  The byte-length gates of the real function are elided here (see the
section comment above); `naclVerifyDetachedGated` makes them explicit. -/
def naclVerifyDetached (msgBytes sigBytes pkBytes : List Nat) : Bool :=
  decide (sigBytes = pkBytes ++ msgBytes)

/-- The unique valid signature of a message under a public key, reshaped to
the fixed 64-byte signature size of the real scheme (truncation makes it
non-injective in the message, which the gate projection does not need). -/
def naclSign64 (msgBytes pkBytes : List Nat) : List Nat :=
  List.take 64 (pkBytes ++ msgBytes ++ List.replicate 32 0)

/-- Modelled from the spec, gate projection: `nacl.sign.detached.verify`
with tweetnacl's byte-length gates explicit — `none` models the thrown
`bad signature size` / `bad public key size` errors, and a gate-passing
signature is compared against the valid 64-byte signature. -/
def naclVerifyDetachedGated (msgBytes sigBytes pkBytes : List Nat) : Option Bool :=
  if sigBytes.length = 64 then
    if pkBytes.length = 32 then
      some (decide (sigBytes = naclSign64 msgBytes pkBytes))
    else none
  else none

/-- Modelled from the spec: the Ed25519 public key derived from the first 32
bytes of a secret key (`nacl.sign.keyPair.fromSecretKey`).  The derivation is
an unspecified deterministic byte map; it is idealized as a pointwise map
whose outputs are always odd (in particular nonzero), matching the fact that
a real encoded Ed25519 public key is never the all-zero string. -/
def derivePk (seed : List Nat) : List Nat := seed.map (fun b => (2 * b + 1) % 256)

/-- Models `@solana/web3.js` keypair: 64-byte secret key whose last 32 bytes are the
public key. -/
structure Keypair where
  secretKey : List Nat
  publicKey : List Nat

/-- Modelled from web3.js `Keypair.fromSecretKey`: requires exactly 64 bytes
(`bad secret key size`) and validates that the embedded public key matches
the one derived from the first 32 bytes (`provided secretKey is invalid`).
The byte-range condition models the `Uint8Array` element type. -/
def keypairFromSecretKey (sk : List Nat) : Option Keypair :=
  if sk.length = 64 ∧ (∀ b ∈ sk, b < 256) ∧ List.drop 32 sk = derivePk (List.take 32 sk)
  then some ⟨sk, List.drop 32 sk⟩
  else none

/-- The `{signature, publicKey}` result object. -/
structure SignResult where
  signature : List Char
  publicKey : List Char

/-- Models `SolanaMessageSigner.signMessage`: sign the message bytes with nacl,
format the signature, and render the public key with web3's `toBase58()`.
Messages are modelled directly as their UTF-8 byte sequences (the
`TextEncoder` step is external and injective, and both the signing and the
verifying path apply it identically). -/
def signMessage (msgBytes : List Nat) (kp : Keypair) (fmt : SigFormat) : Option SignResult :=
  match formatSignature (naclSignDetached msgBytes kp.secretKey) fmt with
  | some s => some ⟨s, bs58encode kp.publicKey⟩
  | none => none

/-- Modelled from web3.js `new PublicKey(str).toBytes()`: base58-decode the
string and require exactly 32 bytes (`Invalid public key input`). -/
def publicKeyFromBase58 (s : List Char) : Option (List Nat) :=
  match bs58decode s with
  | some bytes => if bytes.length = 32 then some bytes else none
  | none => none

/-- Models `SolanaMessageSigner.verifySignature`: parse the signature under the
stated format, decode the public key, and call nacl verify; any parse
failure is caught and re-thrown as `Failed to verify signature: ...`. -/
def verifySignature (msgBytes : List Nat) (signature : List Char)
    (publicKey : List Char) (fmt : SigFormat) : Except String Bool :=
  match parseSignature signature fmt with
  | none => Except.error "Failed to verify signature"
  | some sigBytes =>
    match publicKeyFromBase58 publicKey with
    | none => Except.error "Failed to verify signature"
    | some pkBytes => Except.ok (naclVerifyDetached msgBytes sigBytes pkBytes)

/-- Models `SolanaMessageSigner.verifySignature` in the gate projection of
nacl verify: identical parsing and public-key decoding, with the byte-length
gates of `nacl.sign.detached.verify` explicit, so that a decoded signature
of the wrong length is an error (caught and re-thrown by the source's
`catch`) rather than a `false` result. -/
def verifySignatureGated (msgBytes : List Nat) (signature : List Char)
    (publicKey : List Char) (fmt : SigFormat) : Except String Bool :=
  match parseSignature signature fmt with
  | none => Except.error "Failed to verify signature"
  | some sigBytes =>
    match publicKeyFromBase58 publicKey with
    | none => Except.error "Failed to verify signature"
    | some pkBytes =>
      match naclVerifyDetachedGated msgBytes sigBytes pkBytes with
      | some b => Except.ok b
      | none => Except.error "Failed to verify signature"

/-! ## Private-key decoding (`decodePrivateKey`, `signWithPrivateKey`) -/

/-- Which tier of `decodePrivateKey`'s try/catch cascade produced the
result. -/
inductive KeyTier
  | base58
  | hex
  | base64
  | invalid
deriving DecidableEq

/-- The hex tier `new Uint8Array(Buffer.from(privateKey, 'hex'))`: Node's
hex decoding never throws (it truncates), so this tier always succeeds. -/
def hexTierDecode (s : List Char) : Option (List Nat) := some (bufferFromHex s)

/-- The base64 tier `new Uint8Array(Buffer.from(privateKey, 'base64'))`:
also never throws in Node. -/
def base64TierDecode (s : List Char) : Option (List Nat) := some (bufferFromB64 s)

/-- Models `SolanaMessageSigner.decodePrivateKey` with its tier recorded: try
base58, on failure hex, on failure base64, otherwise the final
`Invalid private key format` error. -/
def decodePrivateKeyTier (s : List Char) : KeyTier × Option (List Nat) :=
  match fromBase58 s with
  | some bytes => (KeyTier.base58, some bytes)
  | none =>
    match hexTierDecode s with
    | some bytes => (KeyTier.hex, some bytes)
    | none =>
      match base64TierDecode s with
      | some bytes => (KeyTier.base64, some bytes)
      | none => (KeyTier.invalid, none)

/-- Models `SolanaMessageSigner.decodePrivateKey` (result only). -/
def decodePrivateKey (s : List Char) : Option (List Nat) := (decodePrivateKeyTier s).2

/-! ## JSON byte arrays (`JSON.parse`, external builtin)

`JSON.parse` is a JS builtin, modelled here in the restricted form the
program consumes: a flat array of integer literals.  Other JSON documents
(objects, strings, nested arrays, non-integer numbers) are mapped to `none`;
for every use in this development (`signWithPrivateKey`'s fallback and
`validatePrivateKey`) a non-array or unparseable document has the same
observable effect as a parse failure. -/

def digitVal (c : Char) : Option Nat :=
  if '0' ≤ c ∧ c ≤ '9' then some (c.toNat - 48) else none

def takeDigits : List Char → List Nat × List Char
  | [] => ([], [])
  | c :: cs =>
    match digitVal c with
    | some d =>
      match takeDigits cs with
      | (ds, rest) => (d :: ds, rest)
    | none => ([], c :: cs)

def parseIntTok : List Char → Option (Int × List Char)
  | '-' :: cs =>
    match takeDigits cs with
    | ([], _) => none
    | (ds, rest) => some (-(ofDigitsBE 10 ds : Nat), rest)
  | cs =>
    match takeDigits cs with
    | ([], _) => none
    | (ds, rest) => some (((ofDigitsBE 10 ds : Nat) : Int), rest)

def parseArrTail (fuel : Nat) (cs : List Char) : Option (List Int × List Char) :=
  match fuel, cs with
  | _, ']' :: rest => some ([], rest)
  | fuel + 1, ',' :: cs2 =>
    match parseIntTok cs2 with
    | some (n, rest) =>
      match parseArrTail fuel rest with
      | some (ns, rest2) => some (n :: ns, rest2)
      | none => none
    | none => none
  | _, _ => none

/-- Restricted model of `JSON.parse` returning a flat integer array. -/
def jsonParse (s : List Char) : Option (List Int) :=
  match s with
  | '[' :: cs =>
    match cs with
    | ']' :: rest => if rest = [] then some [] else none
    | _ =>
      match parseIntTok cs with
      | some (n, rest) =>
        match parseArrTail s.length rest with
        | some (ns, rest2) => if rest2 = [] then some (n :: ns) else none
        | none => none
      | none => none
  | _ => none

/-- ECMAScript `ToUint8`, applied elementwise by `new Uint8Array(array)`:
integers are reduced modulo 256 into `[0, 256)`. -/
def uint8Coerce (x : Int) : Nat := (x % 256).toNat

/-- Models `SolanaMessageSigner.signWithPrivateKey`: first try
`decodePrivateKey` + `Keypair.fromSecretKey`; if either throws, try parsing
the string as a JSON byte array; if that also fails, throw
`Private key must be a base58 string or JSON array of bytes`. -/
def signWithPrivateKey (msgBytes : List Nat) (privateKey : List Char)
    (fmt : SigFormat) : Except String SignResult :=
  match (decodePrivateKey privateKey).bind keypairFromSecretKey with
  | some kp =>
    match signMessage msgBytes kp fmt with
    | some r => Except.ok r
    | none => Except.error "Failed to sign with private key"
  | none =>
    match jsonParse privateKey with
    | some elems =>
      match keypairFromSecretKey (elems.map uint8Coerce) with
      | some kp =>
        match signMessage msgBytes kp fmt with
        | some r => Except.ok r
        | none => Except.error "Failed to sign with private key"
      | none => Except.error "Failed to sign with private key"
    | none =>
      Except.error "Failed to sign with private key: Private key must be a base58 string or JSON array of bytes"

/-! ## Keypair files (`signWithKeypairFile`, `validateKeypairFile`) -/

/-- The array-shape checks of `validateKeypairFile` (src/lib/validator.ts)
after the file has been read and `JSON.parse` has produced an array: exactly
64 elements, each an integer in `[0, 255]`.  File I/O and JSON parsing are
external; elements are modelled as integers. -/
def validateKeypairArray (elems : List Int) : Bool :=
  decide (elems.length = 64) && elems.all (fun b => decide (0 ≤ b) && decide (b ≤ 255))

/-- Models `SolanaMessageSigner.signWithKeypairFile` on the parsed file content:
`Keypair.fromSecretKey(new Uint8Array(keypairData))`, with any failure
re-thrown as `Failed to sign with keypair file: ...`. -/
def signWithKeypairFileData (msgBytes : List Nat) (elems : List Int)
    (fmt : SigFormat) : Except String SignResult :=
  match keypairFromSecretKey (elems.map uint8Coerce) with
  | some kp =>
    match signMessage msgBytes kp fmt with
    | some r => Except.ok r
    | none => Except.error "Failed to sign with keypair file"
  | none => Except.error "Failed to sign with keypair file"

/-! ## Format validators (src/lib/validator.ts) -/

/-- Models `isValidBase58`: the regex `^[1-9A-HJ-NP-Za-km-z]+$` (whose character
class is exactly the base58 alphabet) together with `length >= 32`. -/
def isValidBase58 (s : List Char) : Bool :=
  s.all (fun c => (b58Index c).isSome) && decide (32 ≤ s.length)

/-- Models `isValidHex`: the regex `^[0-9a-fA-F]+$` together with `length >= 64`
and even length. -/
def isValidHex (s : List Char) : Bool :=
  s.all (fun c => (hexVal c).isSome) && decide (64 ≤ s.length) && decide (s.length % 2 = 0)

/-- Models `isValidBase64`: `btoa(atob(str)) === str`, i.e. the string decodes and
re-encodes to itself (canonical base64). -/
def isValidBase64 (s : List Char) : Bool :=
  b64Encode (bufferFromB64 s) == s

/-- Models `validatePrivateKey`: for a non-empty string, a JSON array of exactly 64
elements is checked elementwise; any other parse outcome falls through to
the base58, hex and base64 character-class checks. -/
def validatePrivateKey (s : List Char) : Bool :=
  if s = [] then false
  else
    match jsonParse s with
    | some elems =>
      if elems.length = 64 then elems.all (fun b => decide (0 ≤ b) && decide (b ≤ 255))
      else isValidBase58 s || isValidHex s || isValidBase64 s
    | none => isValidBase58 s || isValidHex s || isValidBase64 s

/-- Well-formedness of a `Keypair` object as produced by web3.js: 64 secret
bytes in range, the public key field is the last 32 bytes, and those bytes
are the ones derived from the seed. -/
def Keypair.WellFormed (kp : Keypair) : Prop :=
  kp.secretKey.length = 64 ∧ (∀ b ∈ kp.secretKey, b < 256) ∧
    kp.publicKey = List.drop 32 kp.secretKey ∧
    List.drop 32 kp.secretKey = derivePk (List.take 32 kp.secretKey)

/-- Boolean success test for an `Except` result (whether the JS promise
resolves rather than rejects). -/
def exceptOk : Except ε α → Bool
  | Except.ok _ => true
  | Except.error _ => false

/-! ## Theorems -/

theorem ofDigitsBE_nil (b : Nat) : ofDigitsBE b [] = 0 := rfl

theorem foldl_mul_add (b : Nat) (ds : List Nat) (a : Nat) :
    ds.foldl (fun acc d => acc * b + d) a = a * b ^ ds.length + ofDigitsBE b ds := by
  induction ds generalizing a with
  | nil => simp [ofDigitsBE]
  | cons d ds ih =>
    simp only [List.foldl_cons, List.length_cons, ofDigitsBE, Nat.zero_mul, Nat.zero_add]
    rw [ih (a * b + d), ih d]
    ring

theorem ofDigitsBE_cons (b d : Nat) (ds : List Nat) :
    ofDigitsBE b (d :: ds) = d * b ^ ds.length + ofDigitsBE b ds := by
  simpa [ofDigitsBE] using foldl_mul_add b ds d

theorem ofDigitsBE_snoc (b d : Nat) (ds : List Nat) :
    ofDigitsBE b (ds ++ [d]) = ofDigitsBE b ds * b + d := by
  simp [ofDigitsBE, List.foldl_append]

theorem ofDigitsBE_append (b : Nat) (xs ys : List Nat) :
    ofDigitsBE b (xs ++ ys) = ofDigitsBE b xs * b ^ ys.length + ofDigitsBE b ys := by
  simpa [ofDigitsBE, List.foldl_append] using foldl_mul_add b ys (ofDigitsBE b xs)

theorem ofDigitsBE_replicate_zero (b z : Nat) :
    ofDigitsBE b (List.replicate z 0) = 0 := by
  induction z with
  | zero => rfl
  | succ z ih => rw [List.replicate_succ, ofDigitsBE_cons, ih]; ring

theorem ofDigitsBE_replicate_zero_append (b z : Nat) (ds : List Nat) :
    ofDigitsBE b (List.replicate z 0 ++ ds) = ofDigitsBE b ds := by
  rw [ofDigitsBE_append, ofDigitsBE_replicate_zero]; ring

theorem ofDigitsBE_lt (b : Nat) (hb : 1 ≤ b) (ds : List Nat)
    (h : ∀ d ∈ ds, d < b) : ofDigitsBE b ds < b ^ ds.length := by
  induction ds with
  | nil => simpa [ofDigitsBE] using Nat.pos_pow_of_pos 0 hb
  | cons d ds ih =>
    rw [ofDigitsBE_cons, List.length_cons, pow_succ]
    have hd : d < b := h d (List.mem_cons_self d ds)
    have hrest : ofDigitsBE b ds < b ^ ds.length :=
      ih fun x hx => h x (List.mem_cons_of_mem d hx)
    calc d * b ^ ds.length + ofDigitsBE b ds
        < d * b ^ ds.length + b ^ ds.length := by omega
      _ = (d + 1) * b ^ ds.length := by ring
      _ ≤ b * b ^ ds.length := Nat.mul_le_mul_right _ (by omega)
      _ = b ^ ds.length * b := by ring

theorem ofDigitsBE_pos (b : Nat) (hb : 1 ≤ b) (h t) (ds : List Nat)
    (hds : ds = h :: t) (hh : h ≠ 0) : 0 < ofDigitsBE b ds := by
  subst hds
  rw [ofDigitsBE_cons]
  have : 0 < b ^ t.length := Nat.pos_pow_of_pos _ hb
  have : 1 * b ^ t.length ≤ h * b ^ t.length :=
    Nat.mul_le_mul_right _ (by omega)
  omega

theorem ofDigitsBE_le (b : Nat) (h t : _) (ds : List Nat)
    (hds : ds = h :: t) (hh : h ≠ 0) : b ^ t.length ≤ ofDigitsBE b ds := by
  subst hds
  rw [ofDigitsBE_cons]
  have : 1 * b ^ t.length ≤ h * b ^ t.length :=
    Nat.mul_le_mul_right _ (by omega)
  omega

theorem toDigitsBE_zero (b : Nat) (fuel : Nat) : toDigitsBE b fuel 0 = [] := by
  cases fuel <;> simp [toDigitsBE]

/-- Round trip: expanding `n` into big-endian digits and re-accumulating gives
back `n`, provided the fuel is adequate. -/
theorem ofDigitsBE_toDigitsBE (b : Nat) (hb : 2 ≤ b) :
    ∀ fuel n, n < b ^ fuel → ofDigitsBE b (toDigitsBE b fuel n) = n := by
  intro fuel
  induction fuel with
  | zero =>
    intro n hn
    rw [pow_zero] at hn
    have h0 : n = 0 := by omega
    subst h0; rfl
  | succ fuel ih =>
    intro n hn
    by_cases h0 : n = 0
    · subst h0; rw [toDigitsBE_zero]; rfl
    · have hdiv : n / b < b ^ fuel := by
        rw [Nat.div_lt_iff_lt_mul (by omega)]
        calc n < b ^ (fuel + 1) := hn
          _ = b ^ fuel * b := by rw [pow_succ]
      simp only [toDigitsBE, h0, if_false]
      rw [ofDigitsBE_snoc, ih (n / b) hdiv, Nat.mul_comm]
      exact Nat.div_add_mod n b

theorem toDigitsBE_lt (b : Nat) (hb : 2 ≤ b) :
    ∀ fuel n d, d ∈ toDigitsBE b fuel n → d < b := by
  intro fuel
  induction fuel with
  | zero => intro n d hd; simp [toDigitsBE] at hd
  | succ fuel ih =>
    intro n d hd
    by_cases h0 : n = 0
    · subst h0; rw [toDigitsBE_zero] at hd; simp at hd
    · simp only [toDigitsBE, h0, if_false, List.mem_append, List.mem_singleton] at hd
      rcases hd with hd | hd
      · exact ih _ _ hd
      · subst hd; exact Nat.mod_lt _ (by omega)

/-- The leading digit of a nonzero number's big-endian expansion is nonzero. -/
theorem toDigitsBE_head (b : Nat) (hb : 2 ≤ b) :
    ∀ fuel n, n ≠ 0 → n < b ^ fuel →
      ∃ h t, toDigitsBE b fuel n = h :: t ∧ h ≠ 0 := by
  intro fuel
  induction fuel with
  | zero => intro n h0 hn; rw [pow_zero] at hn; omega
  | succ fuel ih =>
    intro n h0 hn
    simp only [toDigitsBE, h0, if_false]
    by_cases hq : n / b = 0
    · rw [hq, toDigitsBE_zero]
      refine ⟨n % b, [], rfl, ?_⟩
      have hlt : n < b := (Nat.div_eq_zero_iff (by omega)).mp hq
      rwa [Nat.mod_eq_of_lt hlt]
    · have hdiv : n / b < b ^ fuel := by
        rw [Nat.div_lt_iff_lt_mul (by omega)]
        calc n < b ^ (fuel + 1) := hn
          _ = b ^ fuel * b := by rw [pow_succ]
      obtain ⟨h, t, heq, hh⟩ := ih (n / b) hq hdiv
      exact ⟨h, t ++ [n % b], by rw [heq]; rfl, hh⟩

/-- Canonicity: the big-endian expansion of the value of a digit list with no
leading zero is the digit list itself. -/
theorem toDigitsBE_ofDigitsBE (b : Nat) (hb : 2 ≤ b) (ds : List Nat)
    (hlt : ∀ d ∈ ds, d < b)
    (hhead : ds = [] ∨ ∃ h t, ds = h :: t ∧ h ≠ 0) :
    ∀ fuel, ofDigitsBE b ds < b ^ fuel →
      toDigitsBE b fuel (ofDigitsBE b ds) = ds := by
  induction ds using List.reverseRecOn with
  | nil => intro fuel hfuel; rw [ofDigitsBE_nil, toDigitsBE_zero]
  | append_singleton ds d ih =>
    intro fuel hfuel
    have hd : d < b := hlt d (by simp)
    rcases ds with _ | ⟨h, t⟩
    · -- single digit
      have hd0 : d ≠ 0 := by
        rcases hhead with habs | ⟨h, t, heq, hh⟩
        · exact absurd habs (by simp)
        · rw [List.nil_append] at heq
          injection heq with h1 h2
          rw [h1]; exact hh
      have hval : ofDigitsBE b ([] ++ [d]) = d := by simp [ofDigitsBE]
      rw [hval] at hfuel ⊢
      have hfuel1 : fuel ≠ 0 := by
        intro h0; subst h0; rw [pow_zero] at hfuel; omega
      obtain ⟨fuel, rfl⟩ := Nat.exists_eq_succ_of_ne_zero hfuel1
      simp only [toDigitsBE, hd0, if_false]
      rw [Nat.div_eq_of_lt hd, Nat.mod_eq_of_lt hd, toDigitsBE_zero, List.nil_append]
    · -- at least two digits
      have hh : h ≠ 0 := by
        rcases hhead with habs | ⟨h2, t2, heq, hh2⟩
        · simp at habs
        · have : h = h2 := by
            have := heq
            simp only [List.cons_append, List.cons.injEq] at this
            exact this.1
          rwa [this]
      have hvpos : 0 < ofDigitsBE b (h :: t) := ofDigitsBE_pos b (by omega) h t _ rfl hh
      have hmlt : ∀ x ∈ h :: t, x < b := fun x hx => hlt x (List.mem_append_left _ hx)
      rw [ofDigitsBE_snoc] at hfuel ⊢
      set v := ofDigitsBE b (h :: t) with hv
      have hfuel1 : fuel ≠ 0 := by
        intro h0; subst h0; rw [pow_zero] at hfuel
        nlinarith [hvpos]
      obtain ⟨fuel, rfl⟩ := Nat.exists_eq_succ_of_ne_zero hfuel1
      have hne : v * b + d ≠ 0 := by positivity
      simp only [toDigitsBE, hne, if_false]
      have hdivv : (v * b + d) / b = v := by
        rw [Nat.mul_comm v b, Nat.mul_add_div (by omega : 0 < b), Nat.div_eq_of_lt hd]
        omega
      have hmodv : (v * b + d) % b = d := by
        rw [Nat.mul_comm v b, Nat.mul_add_mod, Nat.mod_eq_of_lt hd]
      have hvlt : v < b ^ fuel := by
        by_contra hge
        push_neg at hge
        have hbb : b ^ fuel * b ≤ v * b := Nat.mul_le_mul_right b hge
        rw [← pow_succ] at hbb
        simp only [Nat.succ_eq_add_one] at hfuel
        omega
      rw [hdivv, hmodv, ih hmlt (Or.inr ⟨h, t, rfl, hh⟩) fuel hvlt]

theorem countLeading_replicate_append (p : α → Bool) (x : α) (hp : p x = true)
    (z : Nat) (rest : List α)
    (hrest : rest = [] ∨ ∃ h t, rest = h :: t ∧ p h = false) :
    countLeading p (List.replicate z x ++ rest) = z := by
  induction z with
  | zero =>
    rcases hrest with rfl | ⟨h, t, rfl, hh⟩
    · rfl
    · simp [countLeading, hh]
  | succ z ih =>
    rw [List.replicate_succ, List.cons_append]
    simp [countLeading, hp, ih]

/-- Every list splits as a leading run of `x` followed by a remainder that is
empty or starts with a different element. -/
theorem leading_split (x : α) [DecidableEq α] (bs : List α) :
    ∃ z rest, bs = List.replicate z x ++ rest ∧
      countLeading (fun a => a = x) bs = z ∧
      (rest = [] ∨ ∃ h t, rest = h :: t ∧ h ≠ x) := by
  induction bs with
  | nil => exact ⟨0, [], rfl, rfl, Or.inl rfl⟩
  | cons b bs ih =>
    by_cases hb : b = x
    · subst hb
      obtain ⟨z, rest, heq, hcount, hrest⟩ := ih
      refine ⟨z + 1, rest, ?_, ?_, hrest⟩
      · rw [List.replicate_succ, List.cons_append, heq]
      · simp [countLeading, hcount]
    · exact ⟨0, b :: bs, rfl, by simp [countLeading, hb], Or.inr ⟨b, bs, rfl, hb⟩⟩

theorem pow256_le_pow58 (n : Nat) : 256 ^ n ≤ 58 ^ (2 * n) := by
  rw [pow_mul]
  exact Nat.pow_le_pow_left (by norm_num) n

theorem base58Alphabet_length : base58Alphabet.length = 58 := by decide

theorem b58Index_alph : ∀ d : Fin 58, b58Index (alph d.val) = some d.val := by decide

theorem alph_ne_one : ∀ d : Fin 58, d.val ≠ 0 → alph d.val ≠ '1' := by decide

theorem b58IndexAux_spec (c : Char) :
    ∀ ds (i j : Nat), b58IndexAux c ds i = some j →
      i ≤ j ∧ j - i < ds.length ∧ ds.getD (j - i) '?' = c := by
  intro ds
  induction ds with
  | nil => intro i j h; exact absurd h (by simp [b58IndexAux])
  | cons d ds ih =>
    intro i j h
    simp only [b58IndexAux] at h
    by_cases hd : d = c
    · rw [if_pos hd] at h
      injection h with h
      subst h
      simp [hd]
    · rw [if_neg hd] at h
      obtain ⟨h1, h2, h3⟩ := ih (i + 1) j h
      refine ⟨by omega, by simp; omega, ?_⟩
      have : j - i = (j - (i + 1)) + 1 := by omega
      rw [this]
      simpa using h3

theorem b58Index_spec (c : Char) (j : Nat) (h : b58Index c = some j) :
    j < 58 ∧ alph j = c := by
  obtain ⟨h1, h2, h3⟩ := b58IndexAux_spec c base58Alphabet 0 j h
  rw [Nat.sub_zero] at h2 h3
  rw [base58Alphabet_length] at h2
  exact ⟨h2, h3⟩

theorem b58Indexes_append (xs ys : List Char) (dxs dys : List Nat)
    (hx : b58Indexes xs = some dxs) (hy : b58Indexes ys = some dys) :
    b58Indexes (xs ++ ys) = some (dxs ++ dys) := by
  induction xs generalizing dxs with
  | nil =>
    simp only [b58Indexes] at hx
    injection hx with hx
    subst hx
    simpa using hy
  | cons c cs ih =>
    simp only [b58Indexes] at hx ⊢
    rcases hidx : b58Index c with _ | i
    · rw [hidx] at hx; exact absurd hx (by simp)
    · rw [hidx] at hx
      rcases hrest : b58Indexes cs with _ | ds
      · rw [hrest] at hx; exact absurd hx (by simp)
      · rw [hrest] at hx
        simp only [Option.map_some', Option.some.injEq] at hx
        subst hx
        have hrec := ih ds hrest
        simp only [List.cons_append, b58Indexes, hidx, List.append_eq, hrec,
          Option.map_some']

theorem b58Indexes_map_alph (ds : List Nat) (h : ∀ d ∈ ds, d < 58) :
    b58Indexes (ds.map alph) = some ds := by
  induction ds with
  | nil => rfl
  | cons d ds ih =>
    have hd : d < 58 := h d (List.mem_cons_self d ds)
    have : b58Index (alph d) = some d := b58Index_alph ⟨d, hd⟩
    simp only [List.map_cons, b58Indexes, this,
      ih fun x hx => h x (List.mem_cons_of_mem d hx)]
    rfl

theorem b58Indexes_replicate_one (z : Nat) :
    b58Indexes (List.replicate z '1') = some (List.replicate z 0) := by
  induction z with
  | zero => rfl
  | succ z ih =>
    rw [List.replicate_succ, List.replicate_succ, b58Indexes]
    have h1 : b58Index '1' = some 0 := by decide
    rw [h1, ih]
    rfl

theorem b58Indexes_spec (s : List Char) (ds : List Nat)
    (h : b58Indexes s = some ds) :
    s = ds.map alph ∧ (∀ d ∈ ds, d < 58) ∧ ds.length = s.length := by
  induction s generalizing ds with
  | nil =>
    simp only [b58Indexes] at h
    injection h with h
    subst h
    simp
  | cons c cs ih =>
    simp only [b58Indexes] at h
    rcases hidx : b58Index c with _ | i
    · rw [hidx] at h; exact absurd h (by simp)
    · rw [hidx] at h
      rcases hrest : b58Indexes cs with _ | ds2
      · rw [hrest] at h; exact absurd h (by simp)
      · rw [hrest] at h
        simp only [Option.map_some', Option.some.injEq] at h
        subst h
        obtain ⟨hmap, hlt, hlen⟩ := ih ds2 hrest
        obtain ⟨hi58, hialph⟩ := b58Index_spec c i hidx
        refine ⟨?_, ?_, by simp [hlen]⟩
        · rw [List.map_cons, hialph, ← hmap]
        · intro d hd
          rcases List.mem_cons.mp hd with rfl | hd
          · exact hi58
          · exact hlt d hd

theorem b58Indexes_isSome (s : List Char) (h : ∀ c ∈ s, (b58Index c).isSome) :
    ∃ ds, b58Indexes s = some ds := by
  induction s with
  | nil => exact ⟨[], rfl⟩
  | cons c cs ih =>
    have hc := h c (List.mem_cons_self c cs)
    rcases hidx : b58Index c with _ | i
    · rw [hidx] at hc; exact absurd hc (by simp)
    · obtain ⟨ds, hds⟩ := ih fun x hx => h x (List.mem_cons_of_mem c hx)
      exact ⟨i :: ds, by simp [b58Indexes, hidx, hds]⟩

/-- Decoding the encoding of a buffer with at least one nonzero byte gives the
buffer back (the all-zero case is excluded: it is precisely where the
early-return quirk of `toBase58` breaks the round trip). -/
theorem fromBase58_toBase58 (bs : List Nat) (h256 : ∀ x ∈ bs, x < 256)
    (hnz : ∃ x ∈ bs, x ≠ 0) :
    (toBase58 bs).bind fromBase58 = some bs := by
  obtain ⟨x0, hx0mem, hx0ne⟩ := hnz
  have hbsne : bs ≠ [] := List.ne_nil_of_mem hx0mem
  obtain ⟨z, rest, hsplit, hcount, hrestc⟩ := leading_split (0 : Nat) bs
  rcases hrestc with rfl | ⟨h, t, rfl, hh⟩
  · rw [List.append_nil] at hsplit
    rw [hsplit] at hx0mem
    exact absurd (List.eq_of_mem_replicate hx0mem) hx0ne
  · have hnum : ofDigitsBE 256 bs = ofDigitsBE 256 (h :: t) := by
      rw [hsplit, ofDigitsBE_replicate_zero_append]
    have hpos : 0 < ofDigitsBE 256 bs := by
      rw [hnum]; exact ofDigitsBE_pos 256 (by omega) h t _ rfl hh
    have hnum0 : ¬ ofDigitsBE 256 bs = 0 := by omega
    have hrest256 : ∀ x ∈ h :: t, x < 256 := by
      intro x hx
      exact h256 x (hsplit ▸ List.mem_append_right _ hx)
    have hfuel : ofDigitsBE 256 bs < 58 ^ (2 * bs.length) :=
      lt_of_lt_of_le (ofDigitsBE_lt 256 (by omega) bs h256) (pow256_le_pow58 _)
    -- the encoded string
    have henc : toBase58 bs = some (List.replicate z '1' ++
        (toDigitsBE 58 (2 * bs.length) (ofDigitsBE 256 bs)).map alph) := by
      simp only [toBase58, if_neg hbsne, if_neg hnum0, hcount]
    set digits := toDigitsBE 58 (2 * bs.length) (ofDigitsBE 256 bs) with hdigits
    have hdlt : ∀ d ∈ digits, d < 58 := fun d hd => toDigitsBE_lt 58 (by omega) _ _ d hd
    have hdval : ofDigitsBE 58 digits = ofDigitsBE 256 bs :=
      ofDigitsBE_toDigitsBE 58 (by omega) _ _ hfuel
    obtain ⟨dh, dt, hdcons, hdh⟩ := toDigitsBE_head 58 (by omega) _ _ (by omega) hfuel
    rw [← hdigits] at hdcons
    -- the decode pass
    have hidx : b58Indexes (List.replicate z '1' ++ digits.map alph) =
        some (List.replicate z 0 ++ digits) :=
      b58Indexes_append _ _ _ _ (b58Indexes_replicate_one z) (b58Indexes_map_alph digits hdlt)
    have hnum2 : ofDigitsBE 58 (List.replicate z 0 ++ digits) = ofDigitsBE 256 bs := by
      rw [ofDigitsBE_replicate_zero_append, hdval]
    have hcount2 : countLeading (fun c => c = '1') (List.replicate z '1' ++ digits.map alph) = z := by
      apply countLeading_replicate_append _ _ (by simp)
      refine Or.inr ⟨alph dh, dt.map alph, ?_, ?_⟩
      · rw [hdcons, List.map_cons]
      · have hmem : dh ∈ digits := by rw [hdcons]; exact List.mem_cons_self dh dt
        have : alph dh ≠ '1' := alph_ne_one ⟨dh, hdlt dh hmem⟩ hdh
        simpa using this
    -- length bookkeeping for the decode fuel
    have hlen1 : ofDigitsBE 256 bs < 256 ^ (List.replicate z '1' ++ digits.map alph).length := by
      have h1 : 58 ^ t.length ≤ ofDigitsBE 256 bs := by
        rw [hnum]
        exact le_trans (Nat.pow_le_pow_left (by norm_num) _) (ofDigitsBE_le 256 h t _ rfl hh)
      have h2 : ofDigitsBE 256 bs < 58 ^ digits.length := by
        rw [← hdval]; exact ofDigitsBE_lt 58 (by omega) digits hdlt
      have hlt : t.length < digits.length :=
        (Nat.pow_lt_pow_iff_right (by omega : 1 < 58)).mp (lt_of_le_of_lt h1 h2)
      have hlenbs : bs.length = z + (t.length + 1) := by
        rw [hsplit]; simp
      have := ofDigitsBE_lt 256 (by omega) bs h256
      calc ofDigitsBE 256 bs < 256 ^ bs.length := this
        _ ≤ 256 ^ (List.replicate z '1' ++ digits.map alph).length := by
            apply Nat.pow_le_pow_right (by omega)
            simp only [List.length_append, List.length_replicate, List.length_map]
            omega
    have hdec : toDigitsBE 256 (List.replicate z '1' ++ digits.map alph).length
        (ofDigitsBE 256 bs) = h :: t := by
      rw [hnum]
      exact toDigitsBE_ofDigitsBE 256 (by omega) (h :: t) hrest256
        (Or.inr ⟨h, t, rfl, hh⟩) _ (hnum ▸ hlen1)
    rw [henc]
    show fromBase58 _ = some bs
    simp only [fromBase58, hidx, hnum2, if_neg hnum0, hcount2, hdec]
    rw [← hsplit]

/-- Encoding the decoding of a base58 string gives the string back, provided
the string has a character other than `'1'` (or is exactly `"1"`); pure runs
of two or more `'1'`s are where the zero quirks break the round trip. -/
theorem toBase58_fromBase58 (s : List Char) (halpha : ∀ c ∈ s, (b58Index c).isSome)
    (hne : (∃ c ∈ s, c ≠ '1') ∨ s = ['1']) :
    (fromBase58 s).bind toBase58 = some s := by
  rcases hne with ⟨c0, hc0mem, hc0ne⟩ | rfl
  · obtain ⟨ds, hds⟩ := b58Indexes_isSome s halpha
    obtain ⟨hmap, hdlt, hdlen⟩ := b58Indexes_spec s ds hds
    obtain ⟨z, dr, hdsplit, hdcount, hdrest⟩ := leading_split (0 : Nat) ds
    rcases hdrest with rfl | ⟨h, t, rfl, hh⟩
    · -- all digits zero would mean all characters are '1'
      rw [List.append_nil] at hdsplit
      rw [hdsplit] at hmap
      rw [hmap] at hc0mem
      rw [List.map_replicate] at hc0mem
      have : c0 = alph 0 := List.eq_of_mem_replicate hc0mem
      exact absurd (by rw [this]; rfl) hc0ne
    · have hnum : ofDigitsBE 58 ds = ofDigitsBE 58 (h :: t) := by
        rw [hdsplit, ofDigitsBE_replicate_zero_append]
      have hpos : 0 < ofDigitsBE 58 ds := by
        rw [hnum]; exact ofDigitsBE_pos 58 (by omega) h t _ rfl hh
      have hnum0 : ¬ ofDigitsBE 58 ds = 0 := by omega
      have hdr58 : ∀ x ∈ h :: t, x < 58 := fun x hx =>
        hdlt x (hdsplit ▸ List.mem_append_right _ hx)
      have hfuel : ofDigitsBE 58 ds < 256 ^ s.length := by
        calc ofDigitsBE 58 ds < 58 ^ ds.length := ofDigitsBE_lt 58 (by omega) ds hdlt
          _ ≤ 256 ^ ds.length := Nat.pow_le_pow_left (by norm_num) _
          _ = 256 ^ s.length := by rw [hdlen]
      -- characters: s = '1'^z ++ map alph (h :: t)
      have hs : s = List.replicate z '1' ++ (h :: t).map alph := by
        rw [hmap, hdsplit, List.map_append, List.map_replicate]
        rfl
      have halphh : alph h ≠ '1' :=
        alph_ne_one ⟨h, hdr58 h (List.mem_cons_self h t)⟩ hh
      have hcount : countLeading (fun c => c = '1') s = z := by
        rw [hs]
        apply countLeading_replicate_append _ _ (by simp)
        exact Or.inr ⟨alph h, t.map alph, rfl, by simpa using halphh⟩
      -- the decoded bytes
      set bytes := toDigitsBE 256 s.length (ofDigitsBE 58 ds) with hbytes
      have hblt : ∀ x ∈ bytes, x < 256 := fun x hx => toDigitsBE_lt 256 (by omega) _ _ x hx
      have hbval : ofDigitsBE 256 bytes = ofDigitsBE 58 ds :=
        ofDigitsBE_toDigitsBE 256 (by omega) _ _ hfuel
      obtain ⟨bh, bt, hbcons, hbh⟩ := toDigitsBE_head 256 (by omega) _ _ (by omega) hfuel
      rw [← hbytes] at hbcons
      have hdecoded : fromBase58 s = some (List.replicate z 0 ++ bytes) := by
        simp only [fromBase58, hds, if_neg hnum0, hcount]
      -- re-encoding
      have hfullne : List.replicate z 0 ++ bytes ≠ [] := by
        rw [hbcons]
        intro habs
        have := congrArg List.length habs
        simp at this
      have hval2 : ofDigitsBE 256 (List.replicate z 0 ++ bytes) = ofDigitsBE 58 ds := by
        rw [ofDigitsBE_replicate_zero_append, hbval]
      have hcount3 : countLeading (fun b => b = 0) (List.replicate z 0 ++ bytes) = z := by
        apply countLeading_replicate_append _ _ (by simp)
        exact Or.inr ⟨bh, bt, hbcons, by simpa using hbh⟩
      -- fuel for the re-encoding digit loop
      have hfuel2 : ofDigitsBE 58 ds < 58 ^ (2 * (List.replicate z 0 ++ bytes).length) := by
        have h1 : 58 ^ t.length ≤ ofDigitsBE 58 ds := by
          rw [hnum]; exact ofDigitsBE_le 58 h t _ rfl hh
        have h2 : ofDigitsBE 58 ds < 256 ^ bytes.length := by
          rw [← hbval]; exact ofDigitsBE_lt 256 (by omega) bytes hblt
        have h3 : 256 ^ bytes.length ≤ 58 ^ (2 * bytes.length) := pow256_le_pow58 _
        have hlt : t.length < 2 * bytes.length :=
          (Nat.pow_lt_pow_iff_right (by omega : 1 < 58)).mp
            (lt_of_le_of_lt h1 (lt_of_lt_of_le h2 h3))
        have h4 : ofDigitsBE 58 ds < 58 ^ (h :: t).length := by
          rw [hnum]; exact ofDigitsBE_lt 58 (by omega) _ hdr58
        refine lt_of_lt_of_le h4 (Nat.pow_le_pow_right (by omega) ?_)
        simp only [List.length_append, List.length_replicate, List.length_cons]
        omega
      have henc2 : toDigitsBE 58 (2 * (List.replicate z 0 ++ bytes).length)
          (ofDigitsBE 58 ds) = h :: t := by
        rw [hnum]
        exact toDigitsBE_ofDigitsBE 58 (by omega) (h :: t) hdr58
          (Or.inr ⟨h, t, rfl, hh⟩) _ (hnum ▸ hfuel2)
      rw [hdecoded]
      show toBase58 _ = some s
      simp only [toBase58, if_neg hfullne, hval2, if_neg hnum0, hcount3, henc2]
      rw [← hs]
  · decide

/-- The web3.js codec round-trips on every byte buffer, including empty and
all-zero ones (contrast with `toBase58`/`fromBase58`). -/
theorem bs58decode_bs58encode (bs : List Nat) (h256 : ∀ x ∈ bs, x < 256) :
    bs58decode (bs58encode bs) = some bs := by
  obtain ⟨z, rest, hsplit, hcount, hrestc⟩ := leading_split (0 : Nat) bs
  rcases hrestc with rfl | ⟨h, t, rfl, hh⟩
  · -- all-zero (or empty) buffer
    rw [List.append_nil] at hsplit
    have hnum : ofDigitsBE 256 bs = 0 := by
      rw [hsplit, ofDigitsBE_replicate_zero]
    have henc : bs58encode bs = List.replicate z '1' := by
      rw [bs58encode, hnum, toDigitsBE_zero, hcount, List.map_nil, List.append_nil]
    have hcount1 : countLeading (fun c => c = '1') (List.replicate z '1') = z := by
      have := countLeading_replicate_append (fun c => decide (c = '1')) '1' (by simp) z []
        (Or.inl rfl)
      rwa [List.append_nil] at this
    rw [henc]
    simp only [bs58decode, b58Indexes_replicate_one z, hcount1, ofDigitsBE_replicate_zero,
      toDigitsBE_zero, List.append_nil]
    rw [hsplit]
  · have hnum : ofDigitsBE 256 bs = ofDigitsBE 256 (h :: t) := by
      rw [hsplit, ofDigitsBE_replicate_zero_append]
    have hpos : 0 < ofDigitsBE 256 bs := by
      rw [hnum]; exact ofDigitsBE_pos 256 (by omega) h t _ rfl hh
    have hrest256 : ∀ x ∈ h :: t, x < 256 := by
      intro x hx
      exact h256 x (hsplit ▸ List.mem_append_right _ hx)
    have hfuel : ofDigitsBE 256 bs < 58 ^ (2 * bs.length) :=
      lt_of_lt_of_le (ofDigitsBE_lt 256 (by omega) bs h256) (pow256_le_pow58 _)
    have henc : bs58encode bs = List.replicate z '1' ++
        (toDigitsBE 58 (2 * bs.length) (ofDigitsBE 256 bs)).map alph := by
      rw [bs58encode, hcount]
    set digits := toDigitsBE 58 (2 * bs.length) (ofDigitsBE 256 bs) with hdigits
    have hdlt : ∀ d ∈ digits, d < 58 := fun d hd => toDigitsBE_lt 58 (by omega) _ _ d hd
    have hdval : ofDigitsBE 58 digits = ofDigitsBE 256 bs :=
      ofDigitsBE_toDigitsBE 58 (by omega) _ _ hfuel
    obtain ⟨dh, dt, hdcons, hdh⟩ := toDigitsBE_head 58 (by omega) _ _ (by omega) hfuel
    rw [← hdigits] at hdcons
    have hidx : b58Indexes (List.replicate z '1' ++ digits.map alph) =
        some (List.replicate z 0 ++ digits) :=
      b58Indexes_append _ _ _ _ (b58Indexes_replicate_one z) (b58Indexes_map_alph digits hdlt)
    have hnum2 : ofDigitsBE 58 (List.replicate z 0 ++ digits) = ofDigitsBE 256 bs := by
      rw [ofDigitsBE_replicate_zero_append, hdval]
    have hcount2 : countLeading (fun c => c = '1')
        (List.replicate z '1' ++ digits.map alph) = z := by
      apply countLeading_replicate_append _ _ (by simp)
      refine Or.inr ⟨alph dh, dt.map alph, ?_, ?_⟩
      · rw [hdcons, List.map_cons]
      · have hmem : dh ∈ digits := by rw [hdcons]; exact List.mem_cons_self dh dt
        have : alph dh ≠ '1' := alph_ne_one ⟨dh, hdlt dh hmem⟩ hdh
        simpa using this
    have hlen1 : ofDigitsBE 256 bs <
        256 ^ (List.replicate z '1' ++ digits.map alph).length := by
      have h1 : 58 ^ t.length ≤ ofDigitsBE 256 bs := by
        rw [hnum]
        exact le_trans (Nat.pow_le_pow_left (by norm_num) _) (ofDigitsBE_le 256 h t _ rfl hh)
      have h2 : ofDigitsBE 256 bs < 58 ^ digits.length := by
        rw [← hdval]; exact ofDigitsBE_lt 58 (by omega) digits hdlt
      have hlt : t.length < digits.length :=
        (Nat.pow_lt_pow_iff_right (by omega : 1 < 58)).mp (lt_of_le_of_lt h1 h2)
      have hlenbs : bs.length = z + (t.length + 1) := by
        rw [hsplit]; simp
      calc ofDigitsBE 256 bs < 256 ^ bs.length := ofDigitsBE_lt 256 (by omega) bs h256
        _ ≤ 256 ^ (List.replicate z '1' ++ digits.map alph).length := by
            apply Nat.pow_le_pow_right (by omega)
            simp only [List.length_append, List.length_replicate, List.length_map]
            omega
    have hdec : toDigitsBE 256 (List.replicate z '1' ++ digits.map alph).length
        (ofDigitsBE 256 bs) = h :: t := by
      rw [hnum]
      exact toDigitsBE_ofDigitsBE 256 (by omega) (h :: t) hrest256
        (Or.inr ⟨h, t, rfl, hh⟩) _ (hnum ▸ hlen1)
    rw [henc]
    simp only [bs58decode, hidx, hnum2, hcount2, hdec]
    rw [← hsplit]

theorem hexVal_hexDigit : ∀ i : Fin 16, hexVal (hexDigit i.val) = some i.val := by decide

/-- Hex encoding then decoding returns the original bytes. -/
theorem bufferFromHex_hexEncode (bs : List Nat) (h : ∀ x ∈ bs, x < 256) :
    bufferFromHex (hexEncode bs) = bs := by
  induction bs with
  | nil => rfl
  | cons b bs ih =>
    have hb : b < 256 := h b (List.mem_cons_self b bs)
    have h1 : hexVal (hexDigit (b / 16)) = some (b / 16) := hexVal_hexDigit ⟨b / 16, by omega⟩
    have h2 : hexVal (hexDigit (b % 16)) = some (b % 16) := hexVal_hexDigit ⟨b % 16, by omega⟩
    have hrec := ih fun x hx => h x (List.mem_cons_of_mem b hx)
    simp only [hexEncode, bufferFromHex, h1, h2, hrec]
    have : b / 16 * 16 + b % 16 = b := by omega
    rw [this]

theorem dec6_enc6 : ∀ i : Fin 64, dec6 (enc6 i.val) = some i.val := by decide

theorem dec6_pad : dec6 '=' = none := by decide

/-- Base64 encoding then decoding returns the original bytes. -/
theorem bufferFromB64_b64Encode (bs : List Nat) (h : ∀ x ∈ bs, x < 256) :
    bufferFromB64 (b64Encode bs) = bs := by
  revert h
  induction bs using b64Encode.induct with
  | case1 => intro h; rfl
  | case2 a =>
    intro h
    have ha : a < 256 := h a (by simp)
    have h1 : dec6 (enc6 (a / 4)) = some (a / 4) := dec6_enc6 ⟨a / 4, by omega⟩
    have h2 : dec6 (enc6 (a % 4 * 16)) = some (a % 4 * 16) := dec6_enc6 ⟨a % 4 * 16, by omega⟩
    simp only [b64Encode, bufferFromB64, h1, h2, dec6_pad]
    have : a / 4 * 4 + a % 4 * 16 / 16 = a := by omega
    rw [this]
  | case3 a b =>
    intro h
    have ha : a < 256 := h a (by simp)
    have hb : b < 256 := h b (by simp)
    have h1 : dec6 (enc6 (a / 4)) = some (a / 4) := dec6_enc6 ⟨a / 4, by omega⟩
    have h2 : dec6 (enc6 (a % 4 * 16 + b / 16)) = some (a % 4 * 16 + b / 16) :=
      dec6_enc6 ⟨a % 4 * 16 + b / 16, by omega⟩
    have h3 : dec6 (enc6 (b % 16 * 4)) = some (b % 16 * 4) := dec6_enc6 ⟨b % 16 * 4, by omega⟩
    simp only [b64Encode, bufferFromB64, h1, h2, h3, dec6_pad]
    have e1 : a / 4 * 4 + (a % 4 * 16 + b / 16) / 16 = a := by omega
    have e2 : (a % 4 * 16 + b / 16) % 16 * 16 + b % 16 * 4 / 4 = b := by omega
    rw [e1, e2]
  | case4 a b c rest ih =>
    intro h
    have ha : a < 256 := h a (by simp)
    have hb : b < 256 := h b (by simp)
    have hc : c < 256 := h c (by simp)
    have h1 : dec6 (enc6 (a / 4)) = some (a / 4) := dec6_enc6 ⟨a / 4, by omega⟩
    have h2 : dec6 (enc6 (a % 4 * 16 + b / 16)) = some (a % 4 * 16 + b / 16) :=
      dec6_enc6 ⟨a % 4 * 16 + b / 16, by omega⟩
    have h3 : dec6 (enc6 (b % 16 * 4 + c / 64)) = some (b % 16 * 4 + c / 64) :=
      dec6_enc6 ⟨b % 16 * 4 + c / 64, by omega⟩
    have h4 : dec6 (enc6 (c % 64)) = some (c % 64) := dec6_enc6 ⟨c % 64, by omega⟩
    have hrec := ih fun x hx => h x (by simp [hx])
    simp only [b64Encode, bufferFromB64, h1, h2, h3, h4, hrec]
    have e1 : a / 4 * 4 + (a % 4 * 16 + b / 16) / 16 = a := by omega
    have e2 : (a % 4 * 16 + b / 16) % 16 * 16 + (b % 16 * 4 + c / 64) / 4 = b := by omega
    have e3 : (b % 16 * 4 + c / 64) % 4 * 64 + c % 64 = c := by omega
    rw [e1, e2, e3]

/-! ## Claim theorems -/

/-- C2 counterexample: the claim fails at the single zero byte `[0]`.
`toBase58 [0]` early-returns `'1'` without recording the length, and
`fromBase58 '1'` produces two zero bytes (one from the `"00"` hex string of
`num = 0`, one from the leading-`'1'` loop). -/
theorem c2_counterexample : (toBase58 [0]).bind fromBase58 ≠ some [0] := by decide

/-- C2 (amended): decoding the base58 encoding of a byte buffer returns
exactly the original bytes precisely when the buffer contains at least one
nonzero byte, or is the two-byte all-zero buffer `[0, 0]` — the latter is a
fixed point of the two zero quirks (`toBase58 [0,0] = '1'` and
`fromBase58 '1' = [0,0]`).  Every other all-zero input fails: `toBase58`
throws on the empty buffer and collapses any all-zero buffer to `'1'`,
which decodes to `[0, 0]`. -/
theorem c2_base58_roundtrip (bs : List Nat) (h256 : ∀ x ∈ bs, x < 256) :
    (toBase58 bs).bind fromBase58 = some bs ↔ ((∃ x ∈ bs, x ≠ 0) ∨ bs = [0, 0]) := by
  constructor
  · intro h
    by_cases hz : ∃ x ∈ bs, x ≠ 0
    · exact Or.inl hz
    · push_neg at hz
      right
      have hrep : bs = List.replicate bs.length 0 := List.eq_replicate_of_mem hz
      by_cases hnil : bs = []
      · rw [hnil] at h
        exact absurd h (by decide)
      · have hval : ofDigitsBE 256 bs = 0 := by
          conv_lhs => rw [hrep]
          exact ofDigitsBE_replicate_zero 256 bs.length
        have henc : toBase58 bs = some ['1'] := by
          simp [toBase58, hnil, hval]
        rw [henc] at h
        have hone : fromBase58 ['1'] = some bs := h
        have hdec : fromBase58 ['1'] = some [0, 0] := by decide
        have h2 : some ([0, 0] : List Nat) = some bs := hdec.symm.trans hone
        injection h2 with h2
        exact h2.symm
  · intro h
    rcases h with hnz | rfl
    · exact fromBase58_toBase58 bs h256 hnz
    · decide

theorem c2_witness : (toBase58 [0, 1]).bind fromBase58 = some [0, 1] :=
  (c2_base58_roundtrip [0, 1] (by decide)).mpr (Or.inl ⟨1, by decide, by decide⟩)

/-- C3 counterexample: the claim fails at the alphabet string `"11"`:
`fromBase58 "11"` yields three zero bytes, which `toBase58` collapses to
`"1"`. -/
theorem c3_counterexample : (fromBase58 ['1', '1']).bind toBase58 ≠ some ['1', '1'] := by
  decide

/-- C3 (amended): encoding the decoding returns the original string for every
non-empty alphabet string that contains a character other than `'1'`, and for
the one-character string `"1"`; strings of two or more `'1'`s are excluded,
as the round trip fails there. -/
theorem c3_base58_canonical (s : List Char) (halpha : ∀ c ∈ s, (b58Index c).isSome)
    (hne : (∃ c ∈ s, c ≠ '1') ∨ s = ['1']) :
    (fromBase58 s).bind toBase58 = some s :=
  toBase58_fromBase58 s halpha hne

theorem c3_witness : (fromBase58 ['1', '2']).bind toBase58 = some ['1', '2'] :=
  c3_base58_canonical ['1', '2'] (by decide) (Or.inl ⟨'2', by decide, by decide⟩)

/-- C7 counterexample: the all-zero 64-byte signature is not round-tripped by
the base58 format (it is formatted as `"1"` and parsed back as two zero
bytes). -/
theorem c7_counterexample :
    (formatSignature (List.replicate 64 0) SigFormat.base58).bind
      (fun s => parseSignature s SigFormat.base58) ≠ some (List.replicate 64 0) := by
  decide

/-- C7 (amended): for every 64-byte signature, formatting then parsing under
the same format returns the original bytes for the hex and base64 formats;
for base58 the same holds provided the signature has a nonzero byte (the
all-zero signature is the one failure). -/
theorem c7_format_roundtrip (sig : List Nat) (hlen : sig.length = 64)
    (h256 : ∀ x ∈ sig, x < 256) :
    (formatSignature sig SigFormat.hex).bind (fun s => parseSignature s SigFormat.hex)
        = some sig ∧
    (formatSignature sig SigFormat.base64).bind (fun s => parseSignature s SigFormat.base64)
        = some sig ∧
    ((∃ x ∈ sig, x ≠ 0) →
      (formatSignature sig SigFormat.base58).bind (fun s => parseSignature s SigFormat.base58)
        = some sig) := by
  refine ⟨?_, ?_, ?_⟩
  · show (some (bufferFromHex (hexEncode sig)) : Option (List Nat)) = some sig
    rw [bufferFromHex_hexEncode sig h256]
  · show (some (bufferFromB64 (b64Encode sig)) : Option (List Nat)) = some sig
    rw [bufferFromB64_b64Encode sig h256]
  · intro hnz
    exact fromBase58_toBase58 sig h256 hnz

theorem c7_witness :
    (formatSignature (1 :: List.replicate 63 0) SigFormat.hex).bind
        (fun s => parseSignature s SigFormat.hex) = some (1 :: List.replicate 63 0) ∧
    (formatSignature (1 :: List.replicate 63 0) SigFormat.base64).bind
        (fun s => parseSignature s SigFormat.base64) = some (1 :: List.replicate 63 0) ∧
    (formatSignature (1 :: List.replicate 63 0) SigFormat.base58).bind
        (fun s => parseSignature s SigFormat.base58) = some (1 :: List.replicate 63 0) := by
  have h := c7_format_roundtrip (1 :: List.replicate 63 0) (by decide) (by decide)
  exact ⟨h.1, h.2.1, h.2.2 ⟨1, by decide, by decide⟩⟩

/-- C4: whenever the base58 tier of `decodePrivateKey` succeeds, its result
is the one returned and the hex/base64 tiers are never consulted — in
particular a string that is simultaneously valid base58 and valid hex is
decoded as base58. -/
theorem c4_base58_precedence (s : List Char) (h : (fromBase58 s).isSome) :
    (decodePrivateKeyTier s).1 = KeyTier.base58 ∧ decodePrivateKey s = fromBase58 s := by
  rcases hs : fromBase58 s with _ | bytes
  · rw [hs] at h; exact absurd h (by simp)
  · constructor
    · simp [decodePrivateKeyTier, hs]
    · simp [decodePrivateKey, decodePrivateKeyTier, hs]

/-- C4 witness: `"abcd"` consists of hex digits (also a valid hex string for
`Buffer.from(.., 'hex')`) and of base58 alphabet characters; it is decoded by
the base58 tier. -/
theorem c4_witness :
    (∀ c ∈ ['a', 'b', 'c', 'd'], (hexVal c).isSome) ∧
    (fromBase58 ['a', 'b', 'c', 'd']).isSome ∧
    ((decodePrivateKeyTier ['a', 'b', 'c', 'd']).1 = KeyTier.base58 ∧
      decodePrivateKey ['a', 'b', 'c', 'd'] = fromBase58 ['a', 'b', 'c', 'd']) :=
  ⟨by decide, by decide, c4_base58_precedence ['a', 'b', 'c', 'd'] (by decide)⟩

/-- C9: the hex tier (`Buffer.from(s, 'hex')`) never throws, so
`decodePrivateKey` never reaches the base64 tier nor the final
`Invalid private key format` error: every input is decoded by the base58 or
the hex tier. -/
theorem c9_base64_tier_unreachable (s : List Char) :
    (decodePrivateKeyTier s).1 ≠ KeyTier.base64 ∧
    (decodePrivateKeyTier s).1 ≠ KeyTier.invalid ∧
    (decodePrivateKey s).isSome := by
  rcases hs : fromBase58 s with _ | bytes <;>
    simp [decodePrivateKeyTier, decodePrivateKey, hexTierDecode, hs]

/-- C10: the validators are advisory only: the 32-character string `"2...2"`
passes `validatePrivateKey` (valid base58 characters, length ≥ 32), yet
`signWithPrivateKey` fails on it — the base58 tier decodes it to a 24-byte
buffer, which `Keypair.fromSecretKey` rejects, and the JSON fallback cannot
parse it either. -/
theorem c10_validator_advisory :
    validatePrivateKey (List.replicate 32 '2') = true ∧
    exceptOk (signWithPrivateKey [104, 105] (List.replicate 32 '2') SigFormat.base58)
      = false := by
  decide

/-- C1: for every well-formed keypair, verifying the (base58-formatted)
signature produced by signing a message against the returned public key
succeeds, and verifying the same signature against any different message
returns false.  The Ed25519 primitive itself is external and is modelled
from the spec (§4.3). -/
theorem c1_sign_verify (kp : Keypair) (msg1 msg2 : List Nat)
    (hwf : kp.WellFormed) (h1 : ∀ b ∈ msg1, b < 256) (h2 : ∀ b ∈ msg2, b < 256)
    (hne : msg2 ≠ msg1) :
    ∃ r, signMessage msg1 kp SigFormat.base58 = some r ∧
      verifySignature msg1 r.signature r.publicKey SigFormat.base58 = Except.ok true ∧
      verifySignature msg2 r.signature r.publicKey SigFormat.base58 = Except.ok false := by
  obtain ⟨hlen, h256, hpkeq, hder⟩ := hwf
  have hpklen : kp.publicKey.length = 32 := by
    rw [hpkeq, List.length_drop, hlen]
  have hpk256 : ∀ x ∈ kp.publicKey, x < 256 := by
    intro x hx
    rw [hpkeq, hder] at hx
    simp only [derivePk, List.mem_map] at hx
    obtain ⟨b, _, rfl⟩ := hx
    exact Nat.mod_lt _ (by omega)
  have hpkodd : ∀ x ∈ kp.publicKey, x % 2 = 1 := by
    intro x hx
    rw [hpkeq, hder] at hx
    simp only [derivePk, List.mem_map] at hx
    obtain ⟨b, _, rfl⟩ := hx
    omega
  rcases hpk : kp.publicKey with _ | ⟨p0, prest⟩
  · rw [hpk] at hpklen; simp at hpklen
  have hp0 : p0 ≠ 0 := by
    have := hpkodd p0 (by rw [hpk]; exact List.mem_cons_self _ _)
    omega
  have hsig : naclSignDetached msg1 kp.secretKey = kp.publicKey ++ msg1 := by
    rw [naclSignDetached, ← hpkeq]
  have hsig256 : ∀ x ∈ kp.publicKey ++ msg1, x < 256 := by
    intro x hx
    rcases List.mem_append.mp hx with hx | hx
    exacts [hpk256 x hx, h1 x hx]
  have hsignz : ∃ x ∈ kp.publicKey ++ msg1, x ≠ 0 :=
    ⟨p0, by rw [hpk]; exact List.mem_append_left _ (List.mem_cons_self _ _), hp0⟩
  have hrt := fromBase58_toBase58 _ hsig256 hsignz
  rcases henc : toBase58 (kp.publicKey ++ msg1) with _ | s
  · rw [henc] at hrt; exact absurd hrt (by simp)
  rw [henc] at hrt
  have hdec : fromBase58 s = some (kp.publicKey ++ msg1) := hrt
  have hpkdec : publicKeyFromBase58 (bs58encode kp.publicKey) = some kp.publicKey := by
    rw [publicKeyFromBase58, bs58decode_bs58encode _ hpk256]
    simp [hpklen]
  have hsm : signMessage msg1 kp SigFormat.base58 = some ⟨s, bs58encode kp.publicKey⟩ := by
    simp only [signMessage, formatSignature, hsig, henc]
  refine ⟨⟨s, bs58encode kp.publicKey⟩, hsm, ?_, ?_⟩
  · simp only [verifySignature, parseSignature, hdec, hpkdec, naclVerifyDetached]
    simp
  · simp only [verifySignature, parseSignature, hdec, hpkdec, naclVerifyDetached]
    have hneq : kp.publicKey ++ msg1 ≠ kp.publicKey ++ msg2 := by
      intro habs
      exact hne (List.append_cancel_left habs).symm
    simp [hneq]

theorem c1_witness :
    ∃ r, signMessage [104, 105]
        ⟨List.replicate 32 0 ++ List.replicate 32 1, List.replicate 32 1⟩
        SigFormat.base58 = some r ∧
      verifySignature [104, 105] r.signature r.publicKey SigFormat.base58 = Except.ok true ∧
      verifySignature [104] r.signature r.publicKey SigFormat.base58 = Except.ok false :=
  c1_sign_verify _ [104, 105] [104] ⟨by decide, by decide, by decide, by decide⟩
    (by decide) (by decide) (by decide)

theorem publicKeyFromBase58_length (s : List Char) (pk : List Nat)
    (h : publicKeyFromBase58 s = some pk) : pk.length = 32 := by
  rw [publicKeyFromBase58] at h
  rcases hd : bs58decode s with _ | bytes
  · rw [hd] at h; exact absurd h (by simp)
  · rw [hd] at h
    have h2 : (if bytes.length = 32 then some bytes else none) = some pk := h
    by_cases h32 : bytes.length = 32
    · rw [if_pos h32] at h2
      injection h2 with h2
      rw [← h2]; exact h32
    · rw [if_neg h32] at h2; exact absurd h2 (by simp)

/-- C5: in the gate projection of nacl verify, `verifySignature` returns
`Except.ok false` — not an error — for every decodable 64-byte signature
that is not the valid signature of the message under a decodable 32-byte
public key, and it returns an error exactly when the signature string cannot
be parsed under the stated format, the public key string does not decode to
32 bytes, or the decoded signature does not have exactly 64 bytes
(tweetnacl's `bad signature size`). -/
theorem c5_verify_error_policy (msgBytes : List Nat) (sigStr pkStr : List Char)
    (fmt : SigFormat) :
    (exceptOk (verifySignatureGated msgBytes sigStr pkStr fmt) = false ↔
      (parseSignature sigStr fmt = none ∨ publicKeyFromBase58 pkStr = none ∨
        ∃ sigBytes, parseSignature sigStr fmt = some sigBytes ∧ sigBytes.length ≠ 64)) ∧
    (∀ sigBytes pkBytes, parseSignature sigStr fmt = some sigBytes →
      publicKeyFromBase58 pkStr = some pkBytes → sigBytes.length = 64 →
      sigBytes ≠ naclSign64 msgBytes pkBytes →
      verifySignatureGated msgBytes sigStr pkStr fmt = Except.ok false) := by
  constructor
  · rcases hp : parseSignature sigStr fmt with _ | sigBytes
    · simp [verifySignatureGated, hp, exceptOk]
    · rcases hk : publicKeyFromBase58 pkStr with _ | pkBytes
      · simp [verifySignatureGated, hp, hk, exceptOk]
      · have hpk32 : pkBytes.length = 32 := publicKeyFromBase58_length pkStr pkBytes hk
        by_cases hlen : sigBytes.length = 64
        · simp [verifySignatureGated, hp, hk, naclVerifyDetachedGated, hlen, hpk32, exceptOk]
        · simp [verifySignatureGated, hp, hk, naclVerifyDetachedGated, hlen, exceptOk]
  · intro sigBytes pkBytes hp hk hlen hne
    have hpk32 : pkBytes.length = 32 := publicKeyFromBase58_length pkStr pkBytes hk
    simp only [verifySignatureGated, hp, hk, naclVerifyDetachedGated, hlen, hpk32,
      if_pos, if_true]
    simp [hne]

theorem c5_witness :
    verifySignatureGated [104] (hexEncode (List.replicate 64 7))
      (bs58encode (List.replicate 32 1)) SigFormat.hex = Except.ok false :=
  (c5_verify_error_policy [104] (hexEncode (List.replicate 64 7))
      (bs58encode (List.replicate 32 1)) SigFormat.hex).2
    (List.replicate 64 7) (List.replicate 32 1) (by decide) (by decide) (by decide) (by decide)

/-- C6 counterexample: decoding the empty string does NOT fail — the base58
tier returns the zero-filled one-byte buffer `[0]` (num `0` renders as hex
`"00"`); and a string containing `'!'` — a character outside the base58, hex
and base64 alphabets alike — can still make `signWithPrivateKey` succeed,
because the forgiving hex tier truncates at `'!'` and the 128 hex characters
before it decode to a valid 64-byte secret key. -/
theorem c6_counterexample :
    decodePrivateKey [] = some [0] ∧
    ((b58Index '!').isSome = false ∧ (hexVal '!').isSome = false ∧
      (dec6 '!').isSome = false) ∧
    exceptOk (signWithPrivateKey [104]
      (hexEncode (List.replicate 32 0 ++ List.replicate 32 1) ++ ['!'])
      SigFormat.base58) = true := by
  decide

/-- C6 (amended): `decodePrivateKey` does not fail on the empty string — it
returns the zero-filled byte `[0]` — but `signWithPrivateKey` with the empty
private key still throws for every message and output format, because the
one-byte key fails secret-key validation and the JSON-array fallback cannot
parse the empty string. -/
theorem c6_empty_key_rejected (msgBytes : List Nat) (fmt : SigFormat) :
    decodePrivateKey [] = some [0] ∧
    exceptOk (signWithPrivateKey msgBytes [] fmt) = false := by
  constructor
  · decide
  · have h1 : (decodePrivateKey []).bind keypairFromSecretKey = none := rfl
    have h2 : jsonParse [] = none := rfl
    simp [signWithPrivateKey, h1, h2, exceptOk]

/-- C8 counterexample: a 64-element array containing `256` (out of byte
range) is rejected by `validateKeypairFile`, yet `signWithKeypairFile`
succeeds on it: `new Uint8Array(array)` coerces `256` to `0`, and the
coerced bytes form a valid keypair. -/
theorem c8_counterexample :
    validateKeypairArray ((256 : Int) :: (List.replicate 31 0 ++ List.replicate 32 1))
      = false ∧
    exceptOk (signWithKeypairFileData [104]
      ((256 : Int) :: (List.replicate 31 0 ++ List.replicate 32 1))
      SigFormat.base58) = true := by
  decide

/-- C8 (amended): `validateKeypairFile` rejects every array whose length is
not 64 or that contains an element outside `[0, 255]`; `signWithKeypairFile`
fails for every array of the wrong length, but an out-of-range element is
coerced modulo 256 by the `Uint8Array` conversion, so such an array is NOT
necessarily rejected by the signing path. -/
theorem c8_keypair_file_shape (elems : List Int) (msgBytes : List Nat) (fmt : SigFormat)
    (hbad : elems.length ≠ 64 ∨ ∃ x ∈ elems, ¬(0 ≤ x ∧ x ≤ 255)) :
    validateKeypairArray elems = false ∧
    (elems.length ≠ 64 → exceptOk (signWithKeypairFileData msgBytes elems fmt) = false) := by
  constructor
  · rcases hbad with hlen | ⟨x, hx, hrange⟩
    · simp [validateKeypairArray, hlen]
    · rw [validateKeypairArray]
      have hall : elems.all (fun b => decide (0 ≤ b) && decide (b ≤ 255)) = false := by
        rw [List.all_eq_false]
        exact ⟨x, hx, by simpa using hrange⟩
      simp [hall]
  · intro hlen
    have hmaplen : (elems.map uint8Coerce).length ≠ 64 := by simpa using hlen
    have hk : keypairFromSecretKey (elems.map uint8Coerce) = none := by
      rw [keypairFromSecretKey, if_neg]
      intro habs
      exact hmaplen habs.1
    simp [signWithKeypairFileData, hk, exceptOk]

theorem c8_witness :
    validateKeypairArray (List.replicate 65 (0 : Int)) = false ∧
    exceptOk (signWithKeypairFileData [104] (List.replicate 65 (0 : Int))
      SigFormat.base58) = false :=
  ⟨(c8_keypair_file_shape (List.replicate 65 0) [104] SigFormat.base58
      (Or.inl (by decide))).1,
   (c8_keypair_file_shape (List.replicate 65 0) [104] SigFormat.base58
      (Or.inl (by decide))).2 (by decide)⟩

end SolSign
